import Mathlib

/-!
# Verification of the `test-queue` job-queue core

Shallow embedding of the repository's data-access layer (`src/lib/db.ts`),
input validation (`src/lib/validation.ts`) and the HTTP handlers that call
them, together with proofs and refutations of the specified properties.

Modelling conventions:
* SQLite rows of the `jobs` table are `Job` structures; the table itself is a
  `List Job` in rowid (insertion) order.
* SQLite `datetime` TEXT timestamps compare lexicographically, which for the
  ISO format emitted by `datetime('now')` agrees with chronological order, so
  time is modelled as `Nat` and every operation takes the current time `now`
  as an explicit parameter.  The two configured durations
  (`jobTimeoutMinutes`, `cleanupAfterDays`) are passed as explicit `Nat`
  durations in the same abstract unit.
* JavaScript `unknown` payloads that flow through `JSON.stringify` /
  `JSON.parse` are modelled by the inductive `Json` below, with an executable
  serializer and parser.  Escaping is modelled for the two characters that
  make serialization ambiguous (`"` and `\`); JSON numbers are modelled as
  integers.
-/

namespace TestQueue

mutual
/-- JSON values (model of the JS values stored in the `data` / `result`
TEXT columns).  Arrays and objects are separate mutual inductives so that
structural mutual recursion and induction are available. -/
inductive Json where
  | null : Json
  | bool (b : Bool) : Json
  | num (n : Int) : Json
  | str (s : String) : Json
  | arr (elems : JsonArr) : Json
  | obj (fields : JsonObj) : Json

inductive JsonArr where
  | nil : JsonArr
  | cons (hd : Json) (tl : JsonArr) : JsonArr

inductive JsonObj where
  | nil : JsonObj
  | cons (key : String) (val : Json) (tl : JsonObj) : JsonObj
end

deriving instance DecidableEq, Repr for Json, JsonArr, JsonObj

/-- Escaping of a single character inside a JSON string literal
(`JSON.stringify` escapes `"` and `\` with a backslash). -/
def escapeChar (c : Char) : List Char :=
  if c = '"' ∨ c = '\\' then ['\\', c] else [c]

/-- Escaped content of a JSON string literal. -/
def escapeChars : List Char → List Char
  | [] => []
  | c :: cs => escapeChar c ++ escapeChars cs

/-- Decimal digit characters of `n`, least significant first. -/
def natDigitsRev : Nat → List Char
  | 0 => []
  | n + 1 => Nat.digitChar ((n + 1) % 10) :: natDigitsRev ((n + 1) / 10)
decreasing_by exact Nat.div_lt_self (Nat.succ_pos n) (by omega)

/-- Decimal rendering of a natural number. -/
def natChars (n : Nat) : List Char :=
  if n = 0 then ['0'] else (natDigitsRev n).reverse

/-- Decimal rendering of an integer (JS `JSON.stringify` on an integral
number). -/
def intChars : Int → List Char
  | .ofNat n => natChars n
  | .negSucc n => '-' :: natChars (n + 1)

mutual
/-- Characters of `JSON.stringify` applied to a JSON value. -/
def Json.stringifyChars : Json → List Char
  | .null => "null".data
  | .bool true => "true".data
  | .bool false => "false".data
  | .num n => intChars n
  | .str s => '"' :: (escapeChars s.data ++ ['"'])
  | .arr .nil => ['[', ']']
  | .arr (.cons j tl) => '[' :: (j.stringifyChars ++ tl.stringifyRest)
  | .obj .nil => ['{', '}']
  | .obj (.cons k v tl) =>
      '{' :: ('"' :: (escapeChars k.data ++ ['"']) ++ (':' :: v.stringifyChars ++ tl.stringifyRest))

/-- Rendering of the remaining elements of a non-empty array, including the
separating commas and the closing bracket. -/
def JsonArr.stringifyRest : JsonArr → List Char
  | .nil => [']']
  | .cons j tl => ',' :: (j.stringifyChars ++ tl.stringifyRest)

/-- Rendering of the remaining fields of a non-empty object, including the
separating commas and the closing brace. -/
def JsonObj.stringifyRest : JsonObj → List Char
  | .nil => ['}']
  | .cons k v tl =>
      ',' :: ('"' :: (escapeChars k.data ++ ['"']) ++ (':' :: v.stringifyChars ++ tl.stringifyRest))
end

/-- Model of `JSON.stringify`, as a `String`. -/
def Json.stringify (j : Json) : String := ⟨j.stringifyChars⟩

/-- Greedy decimal-digit scanner: accumulates the value of a leading run of
digits, returning the value and the unconsumed remainder. -/
def scanDigits : List Char → Nat → Nat × List Char
  | [], acc => (acc, [])
  | c :: rest, acc =>
      if c.isDigit then scanDigits rest (acc * 10 + (c.toNat - 48))
      else (acc, c :: rest)

/-- Parse a natural number that must start with at least one digit. -/
def parseNat (cs : List Char) : Option (Nat × List Char) :=
  match cs with
  | [] => none
  | c :: rest => if c.isDigit then some (scanDigits (c :: rest) 0) else none

/-- Parse the body of a JSON string literal (the opening quote has already
been consumed), undoing the backslash escapes. -/
def parseStringChars : List Char → Option (List Char × List Char)
  | [] => none
  | c :: rest =>
      if c = '"' then some ([], rest)
      else if c = '\\' then
        match rest with
        | [] => none
        | c2 :: rest2 => (parseStringChars rest2).map fun p => (c2 :: p.1, p.2)
      else (parseStringChars rest).map fun p => (c :: p.1, p.2)

mutual
/-- Fuel-indexed JSON value parser (model of `JSON.parse`). -/
def parseValue : Nat → List Char → Option (Json × List Char)
  | 0, _ => none
  | _ + 1, [] => none
  | fuel + 1, c :: rest =>
      if c.isDigit then
        (parseNat (c :: rest)).map fun p => (Json.num (Int.ofNat p.1), p.2)
      else
        match c, rest with
        | 'n', 'u' :: 'l' :: 'l' :: r => some (Json.null, r)
        | 't', 'r' :: 'u' :: 'e' :: r => some (Json.bool true, r)
        | 'f', 'a' :: 'l' :: 's' :: 'e' :: r => some (Json.bool false, r)
        | '"', r => (parseStringChars r).map fun p => (Json.str ⟨p.1⟩, p.2)
        | '-', r => (parseNat r).map fun p => (Json.num (-(p.1 : Int)), p.2)
        | '[', r =>
            if r.head? = some ']' then some (Json.arr .nil, r.tail)
            else (parseElems fuel r).map fun p => (Json.arr p.1, p.2)
        | '{', r =>
            if r.head? = some '}' then some (Json.obj .nil, r.tail)
            else (parseFields fuel r).map fun p => (Json.obj p.1, p.2)
        | _, _ => none

/-- Parse the elements of a non-empty array up to and including the closing
bracket. -/
def parseElems : Nat → List Char → Option (JsonArr × List Char)
  | 0, _ => none
  | fuel + 1, cs =>
      (parseValue fuel cs).bind fun p =>
        match p.2 with
        | ',' :: r2 => (parseElems fuel r2).map fun q => (JsonArr.cons p.1 q.1, q.2)
        | ']' :: r2 => some (JsonArr.cons p.1 .nil, r2)
        | _ => none

/-- Parse the fields of a non-empty object up to and including the closing
brace. -/
def parseFields : Nat → List Char → Option (JsonObj × List Char)
  | 0, _ => none
  | fuel + 1, cs =>
      match cs with
      | '"' :: r =>
          (parseStringChars r).bind fun kp =>
            match kp.2 with
            | ':' :: r2 =>
                (parseValue fuel r2).bind fun vp =>
                  match vp.2 with
                  | ',' :: r3 => (parseFields fuel r3).map fun q => (JsonObj.cons ⟨kp.1⟩ vp.1 q.1, q.2)
                  | '}' :: r3 => some (JsonObj.cons ⟨kp.1⟩ vp.1 .nil, r3)
                  | _ => none
            | _ => none
      | _ => none
end

/-- Model of `JSON.parse`: parse a complete string, requiring full consumption;
`none` models a thrown `SyntaxError`. -/
def Json.parse (s : String) : Option Json :=
  (parseValue (s.data.length + 1) s.data).bind fun p =>
    match p.2 with
    | [] => some p.1
    | _ => none

mutual
/-- Fuel sufficient for `parseValue` to parse the rendering of `j`. -/
def Json.pfuel : Json → Nat
  | .arr xs => xs.pfuelA + 1
  | .obj fs => fs.pfuelO + 1
  | _ => 1

/-- Fuel sufficient for `parseElems` on the rendering of a non-empty array
whose elements start with this list. -/
def JsonArr.pfuelA : JsonArr → Nat
  | .nil => 0
  | .cons j tl => max j.pfuel tl.pfuelA + 1

/-- Fuel sufficient for `parseFields` on the rendering of a non-empty
object whose fields start with this list. -/
def JsonObj.pfuelO : JsonObj → Nat
  | .nil => 0
  | .cons _ v tl => max v.pfuel tl.pfuelO + 1
end

/-- The input does not begin with a decimal digit (so a greedy number parse
that ran just before it stops exactly here). -/
def notDigitStart (X : List Char) : Prop :=
  ∀ c, X.head? = some c → c.isDigit = false

lemma notDigitStart_nil : notDigitStart [] := by
  intro c h
  simp at h

lemma notDigitStart_cons {c : Char} {X : List Char} (h : c.isDigit = false) :
    notDigitStart (c :: X) := by
  intro d hd
  simp at hd
  exact hd ▸ h

lemma digitChar_isDigit {d : Nat} (h : d < 10) : (Nat.digitChar d).isDigit = true := by
  interval_cases d <;> decide

lemma digitChar_val {d : Nat} (h : d < 10) : (Nat.digitChar d).toNat - 48 = d := by
  interval_cases d <;> decide

lemma natDigitsRev_digits : ∀ n : Nat, ∀ c ∈ natDigitsRev n, c.isDigit = true := by
  intro n
  induction n using Nat.strong_induction_on with
  | _ n ih =>
    match n with
    | 0 => simp [natDigitsRev]
    | n + 1 =>
      rw [natDigitsRev]
      intro c hc
      rcases List.mem_cons.mp hc with h | h
      · exact h ▸ digitChar_isDigit (Nat.mod_lt _ (by omega))
      · exact ih ((n + 1) / 10) (Nat.div_lt_self (Nat.succ_pos n) (by omega)) c h

lemma natDigitsRev_ne_nil {n : Nat} (h : n ≠ 0) : natDigitsRev n ≠ [] := by
  match n with
  | 0 => exact absurd rfl h
  | n + 1 => rw [natDigitsRev]; simp

lemma natChars_digits (n : Nat) : ∀ c ∈ natChars n, c.isDigit = true := by
  intro c hc
  unfold natChars at hc
  by_cases h : n = 0
  · simp [h] at hc
    exact hc ▸ (by decide)
  · rw [if_neg h, List.mem_reverse] at hc
    exact natDigitsRev_digits n c hc

lemma natChars_ne_nil (n : Nat) : natChars n ≠ [] := by
  unfold natChars
  by_cases h : n = 0
  · simp [h]
  · rw [if_neg h]
    simpa using natDigitsRev_ne_nil h

lemma scanDigits_spec : ∀ (ds X : List Char) (acc : Nat),
    (∀ c ∈ ds, c.isDigit = true) → notDigitStart X →
    scanDigits (ds ++ X) acc = (List.foldl (fun a c => a * 10 + (c.toNat - 48)) acc ds, X) := by
  intro ds
  induction ds with
  | nil =>
    intro X acc _ hX
    match X with
    | [] => simp [scanDigits]
    | c :: rest =>
      have : c.isDigit = false := hX c (by simp)
      simp [scanDigits, this]
  | cons d ds ih =>
    intro X acc hd hX
    have hdd : d.isDigit = true := hd d (by simp)
    simp only [List.cons_append, scanDigits, hdd, if_true, List.foldl_cons]
    exact ih X _ (fun c hc => hd c (List.mem_cons_of_mem d hc)) hX

lemma foldr_digits_val : ∀ (n acc : Nat),
    List.foldr (fun c a => a * 10 + (c.toNat - 48)) acc (natDigitsRev n) =
      acc * 10 ^ (natDigitsRev n).length + n := by
  intro n
  induction n using Nat.strong_induction_on with
  | _ n ih =>
    intro acc
    match n with
    | 0 => simp [natDigitsRev]
    | n + 1 =>
      rw [natDigitsRev]
      simp only [List.foldr_cons, List.length_cons]
      rw [ih ((n + 1) / 10) (Nat.div_lt_self (Nat.succ_pos n) (by omega)) acc]
      rw [digitChar_val (Nat.mod_lt _ (by omega))]
      have hdm : (n + 1) / 10 * 10 + (n + 1) % 10 = n + 1 := by
        have := Nat.div_add_mod (n + 1) 10
        omega
      ring_nf
      omega

lemma natChars_foldl (n : Nat) :
    List.foldl (fun a c => a * 10 + (c.toNat - 48)) 0 (natChars n) = n := by
  unfold natChars
  by_cases h : n = 0
  · simp [h]
  · rw [if_neg h, List.foldl_reverse]
    have := foldr_digits_val n 0
    simpa using this

lemma parseNat_natChars (n : Nat) (X : List Char) (hX : notDigitStart X) :
    parseNat (natChars n ++ X) = some (n, X) := by
  obtain ⟨c, cs, hc⟩ : ∃ c cs, natChars n = c :: cs := by
    match h : natChars n with
    | [] => exact absurd h (natChars_ne_nil n)
    | c :: cs => exact ⟨c, cs, rfl⟩
  have hcd : c.isDigit = true := natChars_digits n c (by rw [hc]; simp)
  have hscan := scanDigits_spec (natChars n) X 0 (natChars_digits n) hX
  rw [hc] at hscan ⊢
  simp only [List.cons_append, parseNat, hcd, if_true]
  rw [← List.cons_append, hscan, ← hc, natChars_foldl]

lemma parseStringChars_quote (X : List Char) : parseStringChars ('"' :: X) = some ([], X) := by
  rw [parseStringChars.eq_def]
  simp

lemma parseStringChars_plain {c : Char} (X : List Char) (h1 : ¬c = '"') (h2 : ¬c = '\\') :
    parseStringChars (c :: X) = (parseStringChars X).map fun p => (c :: p.1, p.2) := by
  rw [parseStringChars.eq_def]
  simp [h1, h2]

lemma parseStringChars_escaped (c : Char) (X : List Char) :
    parseStringChars ('\\' :: c :: X) = (parseStringChars X).map fun p => (c :: p.1, p.2) := by
  rw [parseStringChars.eq_def]
  simp

lemma parseString_escape : ∀ (s X : List Char),
    parseStringChars (escapeChars s ++ '"' :: X) = some (s, X) := by
  intro s
  induction s with
  | nil => intro X; simpa [escapeChars] using parseStringChars_quote X
  | cons c cs ih =>
    intro X
    simp only [escapeChars, escapeChar, List.append_assoc]
    by_cases hc : c = '"' ∨ c = '\\'
    · rw [if_pos hc]
      simp only [List.cons_append, List.nil_append]
      rw [parseStringChars_escaped, ih X]
      rfl
    · rw [if_neg hc]
      push_neg at hc
      simp only [List.cons_append, List.nil_append]
      rw [parseStringChars_plain _ hc.1 hc.2, ih X]
      rfl

lemma stringify_head (j : Json) :
    ∃ c cs, j.stringifyChars = c :: cs ∧ c ≠ ']' ∧ c ≠ '}' := by
  match j with
  | .null => exact ⟨'n', _, rfl, by decide, by decide⟩
  | .bool true => exact ⟨'t', _, rfl, by decide, by decide⟩
  | .bool false => exact ⟨'f', _, rfl, by decide, by decide⟩
  | .str s => exact ⟨'"', _, rfl, by decide, by decide⟩
  | .arr .nil => exact ⟨'[', _, rfl, by decide, by decide⟩
  | .arr (.cons j tl) => exact ⟨'[', _, rfl, by decide, by decide⟩
  | .obj .nil => exact ⟨'{', _, rfl, by decide, by decide⟩
  | .obj (.cons k v tl) => exact ⟨'{', _, rfl, by decide, by decide⟩
  | .num (.ofNat m) =>
    obtain ⟨c, cs, hc⟩ : ∃ c cs, natChars m = c :: cs := by
      match h : natChars m with
      | [] => exact absurd h (natChars_ne_nil m)
      | c :: cs => exact ⟨c, cs, rfl⟩
    have hcd : c.isDigit = true := natChars_digits m c (by rw [hc]; simp)
    refine ⟨c, cs, ?_, ?_, ?_⟩
    · show intChars (.ofNat m) = c :: cs
      rw [intChars, hc]
    · intro h; rw [h] at hcd; exact absurd hcd (by decide)
    · intro h; rw [h] at hcd; exact absurd hcd (by decide)
  | .num (.negSucc m) => exact ⟨'-', _, rfl, by decide, by decide⟩

lemma notDigitStart_arrRest (tl : JsonArr) (X : List Char) :
    notDigitStart (tl.stringifyRest ++ X) := by
  match tl with
  | .nil => exact notDigitStart_cons (by decide)
  | .cons j tl => exact notDigitStart_cons (by decide)

lemma notDigitStart_objRest (tl : JsonObj) (X : List Char) :
    notDigitStart (tl.stringifyRest ++ X) := by
  match tl with
  | .nil => exact notDigitStart_cons (by decide)
  | .cons k v tl => exact notDigitStart_cons (by decide)

lemma pfuel_pos (j : Json) : 1 ≤ j.pfuel := by
  cases j <;> simp [Json.pfuel]

lemma pv_null (fuel : Nat) (r : List Char) :
    parseValue (fuel + 1) ('n' :: 'u' :: 'l' :: 'l' :: r) = some (Json.null, r) := by
  rw [parseValue.eq_def]; simp

lemma pv_true (fuel : Nat) (r : List Char) :
    parseValue (fuel + 1) ('t' :: 'r' :: 'u' :: 'e' :: r) = some (Json.bool true, r) := by
  rw [parseValue.eq_def]; simp

lemma pv_false (fuel : Nat) (r : List Char) :
    parseValue (fuel + 1) ('f' :: 'a' :: 'l' :: 's' :: 'e' :: r) = some (Json.bool false, r) := by
  rw [parseValue.eq_def]; simp

lemma pv_str (fuel : Nat) (r : List Char) :
    parseValue (fuel + 1) ('"' :: r) =
      (parseStringChars r).map fun p => (Json.str ⟨p.1⟩, p.2) := by
  rw [parseValue.eq_def]; simp

lemma pv_neg (fuel : Nat) (r : List Char) :
    parseValue (fuel + 1) ('-' :: r) =
      (parseNat r).map fun p => (Json.num (-(p.1 : Int)), p.2) := by
  rw [parseValue.eq_def]; simp

lemma pv_digit {c : Char} (h : c.isDigit = true) (fuel : Nat) (r : List Char) :
    parseValue (fuel + 1) (c :: r) =
      (parseNat (c :: r)).map fun p => (Json.num (Int.ofNat p.1), p.2) := by
  rw [parseValue.eq_def]; simp [h]

lemma pv_lbrack (fuel : Nat) (r : List Char) :
    parseValue (fuel + 1) ('[' :: r) =
      if r.head? = some ']' then some (Json.arr .nil, r.tail)
      else (parseElems fuel r).map fun p => (Json.arr p.1, p.2) := by
  rw [parseValue.eq_def]; simp

lemma pv_lbrace (fuel : Nat) (r : List Char) :
    parseValue (fuel + 1) ('{' :: r) =
      if r.head? = some '}' then some (Json.obj .nil, r.tail)
      else (parseFields fuel r).map fun p => (Json.obj p.1, p.2) := by
  rw [parseValue.eq_def]; simp

lemma pe_succ (fuel : Nat) (cs : List Char) :
    parseElems (fuel + 1) cs =
      (parseValue fuel cs).bind fun p =>
        match p.2 with
        | ',' :: r2 => (parseElems fuel r2).map fun q => (JsonArr.cons p.1 q.1, q.2)
        | ']' :: r2 => some (JsonArr.cons p.1 .nil, r2)
        | _ => none := by
  rw [parseElems.eq_def]

lemma pf_succ (fuel : Nat) (r : List Char) :
    parseFields (fuel + 1) ('"' :: r) =
      (parseStringChars r).bind fun kp =>
        match kp.2 with
        | ':' :: r2 =>
            (parseValue fuel r2).bind fun vp =>
              match vp.2 with
              | ',' :: r3 => (parseFields fuel r3).map fun q => (JsonObj.cons ⟨kp.1⟩ vp.1 q.1, q.2)
              | '}' :: r3 => some (JsonObj.cons ⟨kp.1⟩ vp.1 .nil, r3)
              | _ => none
        | _ => none := by
  rw [parseFields.eq_def]
  rfl

mutual
/-- The parser inverts the serializer on any value rendering followed by a
non-digit remainder. -/
theorem parse_stringify : ∀ (j : Json) (fuel : Nat) (X : List Char),
    j.pfuel ≤ fuel → notDigitStart X →
    parseValue fuel (j.stringifyChars ++ X) = some (j, X)
  | j, 0, _, hf, _ => absurd hf (by have := pfuel_pos j; omega)
  | .null, fuel + 1, X, _, _ => by
      simp only [Json.stringifyChars, List.cons_append, List.nil_append]
      exact pv_null fuel X
  | .bool true, fuel + 1, X, _, _ => by
      simp only [Json.stringifyChars, List.cons_append, List.nil_append]
      exact pv_true fuel X
  | .bool false, fuel + 1, X, _, _ => by
      simp only [Json.stringifyChars, List.cons_append, List.nil_append]
      exact pv_false fuel X
  | .num (.ofNat m), fuel + 1, X, _, hX => by
      obtain ⟨c, cs, hc⟩ : ∃ c cs, natChars m = c :: cs := by
        match h : natChars m with
        | [] => exact absurd h (natChars_ne_nil m)
        | c :: cs => exact ⟨c, cs, rfl⟩
      have hcd : c.isDigit = true := natChars_digits m c (by rw [hc]; simp)
      have hs : Json.stringifyChars (.num (.ofNat m)) = natChars m := by
        simp [Json.stringifyChars, intChars]
      rw [hs, hc, List.cons_append, pv_digit hcd, ← List.cons_append, ← hc,
        parseNat_natChars m X hX]
      rfl
  | .num (.negSucc m), fuel + 1, X, _, hX => by
      have hs : Json.stringifyChars (.num (.negSucc m)) = '-' :: natChars (m + 1) := by
        simp [Json.stringifyChars, intChars]
      rw [hs, List.cons_append, pv_neg, parseNat_natChars (m + 1) X hX]
      simp [Int.negSucc_eq]
  | .str s, fuel + 1, X, _, _ => by
      simp only [Json.stringifyChars, List.cons_append, List.append_assoc,
        List.singleton_append, List.nil_append]
      rw [pv_str, parseString_escape s.data X]
      rfl
  | .arr .nil, fuel + 1, X, _, _ => by
      simp only [Json.stringifyChars, List.cons_append, List.nil_append]
      rw [pv_lbrack]
      simp
  | .arr (.cons j tl), fuel + 1, X, hf, hX => by
      simp only [Json.stringifyChars, List.cons_append, List.append_assoc]
      rw [pv_lbrack]
      obtain ⟨c, cs, hc, h1, _⟩ := stringify_head j
      rw [hc, List.cons_append, List.head?_cons, if_neg (by simp [h1]),
        ← List.cons_append, ← hc,
        parse_stringify_elems j tl fuel X
          (by simp only [Json.pfuel, JsonArr.pfuelA] at hf ⊢; omega)]
      rfl
  | .obj .nil, fuel + 1, X, _, _ => by
      simp only [Json.stringifyChars, List.cons_append, List.nil_append]
      rw [pv_lbrace]
      simp
  | .obj (.cons k v tl), fuel + 1, X, hf, hX => by
      simp only [Json.stringifyChars, List.cons_append, List.append_assoc,
        List.singleton_append, List.nil_append]
      rw [pv_lbrace]
      rw [List.head?_cons, if_neg (by simp),
        parse_stringify_fields k v tl fuel X
          (by simp only [Json.pfuel, JsonObj.pfuelO] at hf ⊢; omega)]
      rfl
termination_by j _ _ _ _ => sizeOf j
decreasing_by
  all_goals simp_wf
  all_goals omega

/-- The parser inverts the serializer on the rendering of the elements of a
non-empty array (including the closing bracket). -/
theorem parse_stringify_elems : ∀ (j : Json) (tl : JsonArr) (fuel : Nat) (X : List Char),
    (JsonArr.cons j tl).pfuelA ≤ fuel →
    parseElems fuel (j.stringifyChars ++ (tl.stringifyRest ++ X)) =
      some (.cons j tl, X)
  | j, tl, 0, _, hf => absurd hf (by simp [JsonArr.pfuelA])
  | j, .nil, fuel + 1, X, hf => by
      rw [pe_succ,
        parse_stringify j fuel (JsonArr.nil.stringifyRest ++ X)
          (by simp only [JsonArr.pfuelA] at hf; omega) (notDigitStart_arrRest .nil X)]
      simp [JsonArr.stringifyRest]
  | j, .cons j2 tl2, fuel + 1, X, hf => by
      rw [pe_succ,
        parse_stringify j fuel ((JsonArr.cons j2 tl2).stringifyRest ++ X)
          (by simp only [JsonArr.pfuelA] at hf; omega)
          (notDigitStart_arrRest (.cons j2 tl2) X)]
      simp only [JsonArr.stringifyRest, List.cons_append, List.append_assoc, Option.some_bind]
      rw [parse_stringify_elems j2 tl2 fuel X
        (by simp only [JsonArr.pfuelA] at hf ⊢; omega)]
      rfl
termination_by j tl _ _ _ => 1 + sizeOf j + sizeOf tl
decreasing_by
  all_goals simp_wf
  all_goals omega

/-- The parser inverts the serializer on the rendering of the fields of a
non-empty object (including the closing brace). -/
theorem parse_stringify_fields : ∀ (k : String) (v : Json) (tl : JsonObj) (fuel : Nat)
    (X : List Char), (JsonObj.cons k v tl).pfuelO ≤ fuel →
    parseFields fuel
        ('"' :: (escapeChars k.data ++ ('"' :: (':' :: (v.stringifyChars ++ (tl.stringifyRest ++ X)))))) =
      some (.cons k v tl, X)
  | k, v, tl, 0, _, hf => absurd hf (by simp [JsonObj.pfuelO])
  | k, v, .nil, fuel + 1, X, hf => by
      rw [pf_succ, parseString_escape k.data
          (':' :: (v.stringifyChars ++ (JsonObj.nil.stringifyRest ++ X)))]
      simp only [Option.some_bind]
      rw [parse_stringify v fuel (JsonObj.nil.stringifyRest ++ X)
        (by simp only [JsonObj.pfuelO] at hf; omega) (notDigitStart_objRest .nil X)]
      simp [JsonObj.stringifyRest]
  | k, v, .cons k2 v2 tl2, fuel + 1, X, hf => by
      rw [pf_succ, parseString_escape k.data
          (':' :: (v.stringifyChars ++ ((JsonObj.cons k2 v2 tl2).stringifyRest ++ X)))]
      simp only [Option.some_bind]
      rw [parse_stringify v fuel ((JsonObj.cons k2 v2 tl2).stringifyRest ++ X)
        (by simp only [JsonObj.pfuelO] at hf; omega) (notDigitStart_objRest (.cons k2 v2 tl2) X)]
      simp only [JsonObj.stringifyRest, List.cons_append, List.append_assoc,
        List.singleton_append, List.nil_append, Option.some_bind]
      rw [parse_stringify_fields k2 v2 tl2 fuel X
        (by simp only [JsonObj.pfuelO] at hf ⊢; omega)]
      rfl
termination_by _ v tl _ _ _ => 1 + sizeOf v + sizeOf tl
decreasing_by
  all_goals simp_wf
  all_goals omega
end

lemma arrRest_length_pos (tl : JsonArr) : 1 ≤ tl.stringifyRest.length := by
  cases tl <;> simp [JsonArr.stringifyRest]

lemma objRest_length_pos (tl : JsonObj) : 1 ≤ tl.stringifyRest.length := by
  cases tl <;> simp [JsonObj.stringifyRest]

mutual
/-- The canonical fuel `length + 1` used by `Json.parse` dominates the fuel
requirement of the round-trip lemma. -/
theorem pfuel_le : ∀ (j : Json), j.pfuel ≤ j.stringifyChars.length + 1
  | .null => by simp [Json.pfuel, Json.stringifyChars]
  | .bool true => by simp [Json.pfuel, Json.stringifyChars]
  | .bool false => by simp [Json.pfuel, Json.stringifyChars]
  | .num n => by simp [Json.pfuel]
  | .str s => by simp [Json.pfuel]
  | .arr .nil => by simp [Json.pfuel, JsonArr.pfuelA]
  | .arr (.cons j tl) => by
      have h := pfuelA_le (.cons j tl)
      simp only [Json.pfuel, JsonArr.pfuelA, JsonArr.stringifyRest, Json.stringifyChars,
        List.length_cons, List.length_append] at h ⊢
      omega
  | .obj .nil => by simp [Json.pfuel, JsonObj.pfuelO]
  | .obj (.cons k v tl) => by
      have h := pfuelO_le (.cons k v tl)
      simp only [Json.pfuel, JsonObj.pfuelO, JsonObj.stringifyRest, Json.stringifyChars,
        List.length_cons, List.length_append] at h ⊢
      omega

theorem pfuelA_le : ∀ (tl : JsonArr), tl.pfuelA ≤ tl.stringifyRest.length
  | .nil => by simp [JsonArr.pfuelA, JsonArr.stringifyRest]
  | .cons j tl => by
      have h1 := pfuel_le j
      have h2 := pfuelA_le tl
      have h3 := arrRest_length_pos tl
      simp only [JsonArr.pfuelA, JsonArr.stringifyRest, List.length_cons,
        List.length_append] at h1 h2 ⊢
      omega

theorem pfuelO_le : ∀ (tl : JsonObj), tl.pfuelO ≤ tl.stringifyRest.length
  | .nil => by simp [JsonObj.pfuelO, JsonObj.stringifyRest]
  | .cons k v tl => by
      have h1 := pfuel_le v
      have h2 := pfuelO_le tl
      have h3 := objRest_length_pos tl
      simp only [JsonObj.pfuelO, JsonObj.stringifyRest, List.length_cons,
        List.length_append] at h1 h2 ⊢
      omega
end

/-- Serialize-then-parse round trip: `JSON.parse (JSON.stringify j) = j` for
every JSON value. -/
theorem parse_stringify_roundtrip (j : Json) : Json.parse (Json.stringify j) = some j := by
  unfold Json.parse Json.stringify
  have h := parse_stringify j (j.stringifyChars.length + 1) []
    (by have := pfuel_le j; omega) notDigitStart_nil
  rw [List.append_nil] at h
  rw [show (String.mk j.stringifyChars).data = j.stringifyChars from rfl, h]
  rfl

/-! ## The job store (`src/lib/db.ts`) -/

/-- Job status: the four values the code writes into the `status` TEXT
column. -/
inductive Status where
  | waiting
  | active
  | completed
  | failed
deriving DecidableEq, Repr

/-- One row of the `jobs` table. -/
structure Job where
  id : String
  type : String
  data : String
  status : Status
  result : Option String
  error : Option String
  retried : Nat
  created_at : Nat
  started_at : Option Nat
  completed_at : Option Nat
deriving DecidableEq, Repr

/-- The `jobs` table, in rowid (insertion) order. -/
abbrev JobStore := List Job

/-- Model of `addJob`: INSERT with the schema defaults `status='waiting'`,
`retried=0`, `created_at=datetime('now')`; the payload is stored as
`JSON.stringify(data)`.  The fresh `crypto.randomUUID()` id is passed in by
the caller. -/
def addJob (id type : String) (data : Json) (now : Nat) (s : JobStore) : String × JobStore :=
  (id,
   s ++ [{ id := id, type := type, data := Json.stringify data, status := .waiting,
           result := none, error := none, retried := 0, created_at := now,
           started_at := none, completed_at := none }])

/-- The comparison `started_at < datetime('now', '-' || timeout || ' minutes')`: a SQL
comparison against a NULL `started_at` is not satisfied. -/
def timedOut (timeout now : Nat) (j : Job) : Bool :=
  match j.started_at with
  | some t => decide (t + timeout < now)
  | none => false

/-- First UPDATE of `claimNextJob`'s transaction: revert timed-out active
jobs with `retried = 0` to `waiting`, clearing `started_at`. -/
def recoverStep (timeout now : Nat) (j : Job) : Job :=
  if j.status = .active ∧ j.retried = 0 ∧ timedOut timeout now j = true then
    { j with status := .waiting, started_at := none }
  else j

/-- First UPDATE of `claimNextJob`'s transaction, applied to the table. -/
def recoverTimedOut (timeout now : Nat) (s : JobStore) : JobStore :=
  s.map (recoverStep timeout now)

/-- Second UPDATE of `claimNextJob`'s transaction: mark timed-out active
jobs with `retried = 1` as failed. -/
def failStep (timeout now : Nat) (j : Job) : Job :=
  if j.status = .active ∧ j.retried = 1 ∧ timedOut timeout now j = true then
    { j with status := .failed, error := some "Timed out after retry",
             completed_at := some now }
  else j

/-- Second UPDATE of `claimNextJob`'s transaction, applied to the table. -/
def failTimedOutRetried (timeout now : Nat) (s : JobStore) : JobStore :=
  s.map (failStep timeout now)

/-- The query `SELECT id, type, data FROM jobs WHERE status='waiting' ORDER BY
created_at LIMIT 1`: the first row in rowid order among the waiting rows
with minimal `created_at` (SQLite orders equal keys by rowid via the
`(status, created_at)` index). -/
def selectOldestWaiting : JobStore → Option Job
  | [] => none
  | j :: rest =>
      if j.status = .waiting then
        match selectOldestWaiting rest with
        | none => some j
        | some k => if k.created_at < j.created_at then some k else some j
      else selectOldestWaiting rest

/-- The table after the two timeout UPDATEs that open `claimNextJob`'s
transaction. -/
def afterTimeoutSweeps (timeout now : Nat) (s : JobStore) : JobStore :=
  failTimedOutRetried timeout now (recoverTimedOut timeout now s)

/-- Model of `claimNextJob`: the whole transaction — the two timeout UPDATEs, the
SELECT of the oldest waiting job, and its promotion to `active` with
`started_at = now` and `retried = retried + 1`.  Returns the claimed job's
id, type and `JSON.parse`d data (or `none` when no job is waiting), plus
the resulting table. -/
def claimNextJob (timeout now : Nat) (s : JobStore) :
    Option (String × String × Option Json) × JobStore :=
  match selectOldestWaiting (afterTimeoutSweeps timeout now s) with
  | none => (none, afterTimeoutSweeps timeout now s)
  | some job =>
      (some (job.id, job.type, Json.parse job.data),
       (afterTimeoutSweeps timeout now s).map fun j =>
         if j.id = job.id then
           { j with status := .active, started_at := some now, retried := j.retried + 1 }
         else j)

/-- Model of `completeJob`: single conditional UPDATE guarded by
`WHERE id = ? AND status = 'active'`; the Bool is `info.changes > 0`. -/
def completeJob (id : String) (result : Json) (now : Nat) (s : JobStore) : Bool × JobStore :=
  (decide (0 < s.countP fun j => decide (j.id = id ∧ j.status = .active)),
   s.map fun j =>
     if j.id = id ∧ j.status = .active then
       { j with status := .completed, result := some (Json.stringify result),
                completed_at := some now }
     else j)

/-- Model of `failJob`: single conditional UPDATE guarded by
`WHERE id = ? AND status = 'active'`; the Bool is `info.changes > 0`. -/
def failJob (id : String) (error : String) (now : Nat) (s : JobStore) : Bool × JobStore :=
  (decide (0 < s.countP fun j => decide (j.id = id ∧ j.status = .active)),
   s.map fun j =>
     if j.id = id ∧ j.status = .active then
       { j with status := .failed, error := some error, completed_at := some now }
     else j)

/-- The record returned by `getJobCounts`: one entry per status, so the four
keys are always present. -/
structure JobCounts where
  waiting : Nat
  active : Nat
  completed : Nat
  failed : Nat
deriving DecidableEq, Repr

/-- Model of `getJobCounts`: `SELECT status, COUNT(*) ... GROUP BY status` spread
over the all-zero defaults; a read-only query, so the table is returned
unchanged. -/
def getJobCounts (s : JobStore) : JobCounts × JobStore :=
  (s.foldl
    (fun c j =>
      match j.status with
      | .waiting => { c with waiting := c.waiting + 1 }
      | .active => { c with active := c.active + 1 }
      | .completed => { c with completed := c.completed + 1 }
      | .failed => { c with failed := c.failed + 1 })
    ⟨0, 0, 0, 0⟩, s)

/-- The comparison `completed_at < datetime('now', '-' || days || ' days')` (NULL compares
unsatisfied). -/
def completedBefore (retention now : Nat) (j : Job) : Bool :=
  match j.completed_at with
  | some t => decide (t + retention < now)
  | none => false

/-- The DELETE condition of `cleanupOldJobs`. -/
def sweepable (retention now : Nat) (j : Job) : Bool :=
  decide (j.status = .completed ∨ j.status = .failed) && completedBefore retention now j

/-- Model of `cleanupOldJobs`: DELETE of aged terminal rows, returning
`info.changes` (the number of deleted rows) and the resulting table. -/
def cleanupOldJobs (retention now : Nat) (s : JobStore) : Nat × JobStore :=
  ((s.filter fun j => sweepable retention now j).length,
   s.filter fun j => !sweepable retention now j)

/-! ## Input validation (`src/lib/validation.ts`) and the POST handler -/

/-- Result type of `validateJobInput`. -/
inductive ValidationResult where
  | ok (type : String) (data : Json)
  | error (msg : String)
deriving DecidableEq, Repr

/-- JS truthiness of a JSON value (the `!x` tests in the validator). -/
def truthy : Json → Bool
  | .null => false
  | .bool b => b
  | .num n => decide (n ≠ 0)
  | .str s => decide (s ≠ "")
  | .arr _ => true
  | .obj _ => true

/-- The JS test `typeof x === 'object'` for a JSON value (true for `null`, arrays and
objects). -/
def isObjectType : Json → Bool
  | .null => true
  | .arr _ => true
  | .obj _ => true
  | _ => false

/-- First-match lookup in an object's field list (a JSON object produced by
`JSON.parse` has no duplicate keys). -/
def lookupField : JsonObj → String → Option Json
  | .nil, _ => none
  | .cons k v tl, key => if k = key then some v else lookupField tl key

/-- Property access `body.key` on a parsed JSON value: `none` models
`undefined` (arrays have only index keys). -/
def getField : Json → String → Option Json
  | .obj fields, key => lookupField fields key
  | _, _ => none

/-- Model of `validateJobInput` over a parsed JSON request body. -/
def validateJobInput (maxPayloadBytes : Nat) (body : Json) : ValidationResult :=
  if !truthy body || !isObjectType body then
    .error "Request body must be an object"
  else
    match getField body "type" with
    | none => .error "type must be a non-empty string"
    | some t =>
        if !truthy t then .error "type must be a non-empty string"
        else
          match t with
          | .str ty =>
              if ty.length > 100 then .error "type must be 100 characters or less"
              else
                match getField body "data" with
                | none => .error "data is required"
                | some d =>
                    if (Json.stringify d).length > maxPayloadBytes then
                      .error ("data exceeds " ++ toString maxPayloadBytes ++ " bytes")
                    else .ok ty d
          | _ => .error "type must be a non-empty string"

/-- Whether validation succeeded. -/
def ValidationResult.isOk : ValidationResult → Bool
  | .ok _ _ => true
  | .error _ => false

/-- The POST handler of `src/app/api/queue/route.ts` after a successful
`request.json()`: HTTP status code and resulting store.  The fresh job id is
a parameter (the code draws it from `crypto.randomUUID()` inside
`addJob`). -/
def postQueue (maxPayloadBytes : Nat) (body : Json) (id : String) (now : Nat)
    (s : JobStore) : Nat × JobStore :=
  match validateJobInput maxPayloadBytes body with
  | .error _ => (400, s)
  | .ok ty d => (201, (addJob id ty d now s).2)

/-! ## Reachable states and invariants -/

/-- States of the `jobs` table reachable from the empty table through the
five mutating operations.  `insert` carries the freshness of the generated
id (the PRIMARY KEY constraint: a duplicate-id INSERT would throw rather
than insert). -/
inductive Reachable : JobStore → Prop where
  | init : Reachable []
  | insert {s} (id type : String) (data : Json) (now : Nat) :
      Reachable s → (∀ j ∈ s, j.id ≠ id) → Reachable (addJob id type data now s).2
  | claim {s} (timeout now : Nat) :
      Reachable s → Reachable (claimNextJob timeout now s).2
  | complete {s} (id : String) (result : Json) (now : Nat) :
      Reachable s → Reachable (completeJob id result now s).2
  | fail {s} (id : String) (error : String) (now : Nat) :
      Reachable s → Reachable (failJob id error now s).2
  | sweep {s} (retention now : Nat) :
      Reachable s → Reachable (cleanupOldJobs retention now s).2

/-- Per-row invariant maintained by every operation. -/
def JobInv (j : Job) : Prop :=
  (j.status = .waiting → j.retried = 0 ∧ j.started_at = none) ∧
  (j.status = .active → j.retried = 1 ∧ j.started_at ≠ none) ∧
  j.retried ≤ 1 ∧
  ((j.status = .completed ∨ j.status = .failed) → j.completed_at ≠ none)

/-- Store invariant: every row satisfies `JobInv` and ids are unique
(PRIMARY KEY). -/
def StoreInv (s : JobStore) : Prop :=
  (∀ j ∈ s, JobInv j) ∧ s.Pairwise fun a b => a.id ≠ b.id

lemma pairwise_ids_map {s : JobStore} (f : Job → Job) (hid : ∀ j, (f j).id = j.id)
    (h : s.Pairwise fun a b => a.id ≠ b.id) :
    (s.map f).Pairwise fun a b => a.id ≠ b.id := by
  rw [List.pairwise_map]
  exact h.imp fun {a b} hab => by rw [hid, hid]; exact hab

lemma eq_of_mem_of_same_id {s : JobStore} (hp : s.Pairwise fun a b => a.id ≠ b.id)
    {a b : Job} (ha : a ∈ s) (hb : b ∈ s) (hid : a.id = b.id) : a = b := by
  by_contra hne
  exact (hp.forall (fun x y hxy => Ne.symm hxy) ha hb hne) hid

lemma recoverStep_id (timeout now : Nat) (j : Job) :
    (recoverStep timeout now j).id = j.id := by
  unfold recoverStep
  split <;> rfl

lemma failStep_id (timeout now : Nat) (j : Job) :
    (failStep timeout now j).id = j.id := by
  unfold failStep
  split <;> rfl

lemma jobInv_recover {timeout now : Nat} {j : Job} (h : JobInv j) :
    JobInv (recoverStep timeout now j) := by
  unfold recoverStep
  split
  · next hc => simp [JobInv, hc.2.1]
  · exact h

lemma jobInv_failTimeout {timeout now : Nat} {j : Job} (h : JobInv j) :
    JobInv (failStep timeout now j) := by
  unfold failStep
  split
  · next hc => simp [JobInv, hc.2.1]
  · exact h

lemma mem_afterTimeoutSweeps {timeout now : Nat} {s : JobStore} {j : Job}
    (hj : j ∈ afterTimeoutSweeps timeout now s) :
    ∃ j0 ∈ s, j = failStep timeout now (recoverStep timeout now j0) := by
  rw [afterTimeoutSweeps, failTimedOutRetried, List.mem_map] at hj
  obtain ⟨j1, hj1, rfl⟩ := hj
  rw [recoverTimedOut, List.mem_map] at hj1
  obtain ⟨j0, hj0, rfl⟩ := hj1
  exact ⟨j0, hj0, rfl⟩

lemma jobInv_afterTimeoutSweeps {timeout now : Nat} {s : JobStore}
    (h : ∀ j ∈ s, JobInv j) :
    ∀ j ∈ afterTimeoutSweeps timeout now s, JobInv j := by
  intro j hj
  obtain ⟨j0, hj0, rfl⟩ := mem_afterTimeoutSweeps hj
  exact jobInv_failTimeout (jobInv_recover (h j0 hj0))

lemma pairwise_afterTimeoutSweeps {timeout now : Nat} {s : JobStore}
    (h : s.Pairwise fun a b => a.id ≠ b.id) :
    (afterTimeoutSweeps timeout now s).Pairwise fun a b => a.id ≠ b.id := by
  rw [afterTimeoutSweeps, failTimedOutRetried, recoverTimedOut]
  exact pairwise_ids_map _ (failStep_id timeout now)
    (pairwise_ids_map _ (recoverStep_id timeout now) h)

lemma sow_mem : ∀ {s : JobStore} {job : Job}, selectOldestWaiting s = some job →
    job ∈ s ∧ job.status = .waiting := by
  intro s
  induction s with
  | nil => intro job h; simp [selectOldestWaiting] at h
  | cons j rest ih =>
    intro job h
    rw [selectOldestWaiting] at h
    by_cases hw : j.status = .waiting
    · rw [if_pos hw] at h
      cases hrest : selectOldestWaiting rest with
      | none =>
        simp only [hrest] at h
        obtain rfl := Option.some.inj h
        exact ⟨by simp, hw⟩
      | some k =>
        simp only [hrest] at h
        obtain ⟨hkm, hkw⟩ := ih hrest
        by_cases hlt : k.created_at < j.created_at
        · rw [if_pos hlt] at h
          obtain rfl := Option.some.inj h
          exact ⟨List.mem_cons_of_mem j hkm, hkw⟩
        · rw [if_neg hlt] at h
          obtain rfl := Option.some.inj h
          exact ⟨by simp, hw⟩
    · rw [if_neg hw] at h
      obtain ⟨hm, hjw⟩ := ih h
      exact ⟨List.mem_cons_of_mem j hm, hjw⟩

lemma sow_none : ∀ {s : JobStore}, selectOldestWaiting s = none →
    ∀ j ∈ s, j.status ≠ .waiting := by
  intro s
  induction s with
  | nil => intro _ j hj; simp at hj
  | cons a l ih =>
    intro h j hj
    rw [selectOldestWaiting] at h
    by_cases hw : a.status = .waiting
    · rw [if_pos hw] at h
      exfalso
      cases hrest : selectOldestWaiting l with
      | none => simp [hrest] at h
      | some k =>
        simp only [hrest] at h
        by_cases hlt : k.created_at < a.created_at
        · rw [if_pos hlt] at h; exact Option.noConfusion h
        · rw [if_neg hlt] at h; exact Option.noConfusion h
    · rw [if_neg hw] at h
      rcases List.mem_cons.mp hj with rfl | hj
      · exact hw
      · exact ih h j hj

lemma sow_min : ∀ {s : JobStore} {job : Job}, selectOldestWaiting s = some job →
    ∀ k ∈ s, k.status = .waiting → job.created_at ≤ k.created_at := by
  intro s
  induction s with
  | nil => intro job h; simp [selectOldestWaiting] at h
  | cons j rest ih =>
    intro job h k hk hkw
    rw [selectOldestWaiting] at h
    by_cases hw : j.status = .waiting
    · rw [if_pos hw] at h
      cases hrest : selectOldestWaiting rest with
      | none =>
        simp only [hrest] at h
        obtain rfl := Option.some.inj h
        rcases List.mem_cons.mp hk with rfl | hk
        · exact le_refl _
        · exact absurd hkw (sow_none hrest k hk)
      | some m =>
        simp only [hrest] at h
        by_cases hlt : m.created_at < j.created_at
        · rw [if_pos hlt] at h
          obtain rfl := Option.some.inj h
          rcases List.mem_cons.mp hk with rfl | hk
          · omega
          · exact ih hrest k hk hkw
        · rw [if_neg hlt] at h
          obtain rfl := Option.some.inj h
          rcases List.mem_cons.mp hk with rfl | hk
          · exact le_refl _
          · have hmk := ih hrest k hk hkw
            omega
    · rw [if_neg hw] at h
      rcases List.mem_cons.mp hk with rfl | hk
      · exact absurd hkw hw
      · exact ih h k hk hkw

lemma storeInv_addJob {s : JobStore} (h : StoreInv s) (id type : String) (d : Json)
    (now : Nat) (hfresh : ∀ j ∈ s, j.id ≠ id) : StoreInv (addJob id type d now s).2 := by
  obtain ⟨hinv, hpw⟩ := h
  constructor
  · intro j hj
    rw [addJob] at hj
    rcases List.mem_append.mp hj with hj | hj
    · exact hinv j hj
    · rcases List.mem_singleton.mp hj with rfl
      simp [JobInv]
  · rw [addJob]
    refine List.pairwise_append.mpr ⟨hpw, by simp, ?_⟩
    intro a ha b hb
    rcases List.mem_singleton.mp hb with rfl
    exact hfresh a ha

lemma storeInv_claim {s : JobStore} (h : StoreInv s) (timeout now : Nat) :
    StoreInv (claimNextJob timeout now s).2 := by
  obtain ⟨hinv, hpw⟩ := h
  have hinv2 := @jobInv_afterTimeoutSweeps timeout now s hinv
  have hpw2 := @pairwise_afterTimeoutSweeps timeout now s hpw
  rw [claimNextJob]
  cases hsel : selectOldestWaiting (afterTimeoutSweeps timeout now s) with
  | none => exact ⟨hinv2, hpw2⟩
  | some job =>
    obtain ⟨hjmem, hjwait⟩ := sow_mem hsel
    constructor
    · intro j hj
      rw [List.mem_map] at hj
      obtain ⟨j0, hj0, rfl⟩ := hj
      by_cases hid : j0.id = job.id
      · have hj0job : j0 = job := eq_of_mem_of_same_id hpw2 hj0 hjmem hid
        subst hj0job
        have hr0 : j0.retried = 0 := ((hinv2 j0 hj0).1 hjwait).1
        rw [if_pos hid]
        simp [JobInv, hr0]
      · rw [if_neg hid]
        exact hinv2 j0 hj0
    · exact pairwise_ids_map _ (fun j => by split <;> rfl) hpw2

lemma storeInv_complete {s : JobStore} (h : StoreInv s) (id : String) (result : Json)
    (now : Nat) : StoreInv (completeJob id result now s).2 := by
  obtain ⟨hinv, hpw⟩ := h
  constructor
  · intro j hj
    rw [completeJob, List.mem_map] at hj
    obtain ⟨j0, hj0, rfl⟩ := hj
    have h0 := hinv j0 hj0
    split
    · next hc =>
      have hr := (h0.2.1 hc.2).1
      simp [JobInv, hr]
    · exact h0
  · exact pairwise_ids_map _ (fun j => by split <;> rfl) hpw

lemma storeInv_fail {s : JobStore} (h : StoreInv s) (id error : String)
    (now : Nat) : StoreInv (failJob id error now s).2 := by
  obtain ⟨hinv, hpw⟩ := h
  constructor
  · intro j hj
    rw [failJob, List.mem_map] at hj
    obtain ⟨j0, hj0, rfl⟩ := hj
    have h0 := hinv j0 hj0
    split
    · next hc =>
      have hr := (h0.2.1 hc.2).1
      simp [JobInv, hr]
    · exact h0
  · exact pairwise_ids_map _ (fun j => by split <;> rfl) hpw

lemma storeInv_sweep {s : JobStore} (h : StoreInv s) (retention now : Nat) :
    StoreInv (cleanupOldJobs retention now s).2 := by
  obtain ⟨hinv, hpw⟩ := h
  constructor
  · intro j hj
    exact hinv j (List.mem_of_mem_filter hj)
  · exact hpw.sublist (List.filter_sublist s)

/-- Every reachable table satisfies the store invariant. -/
theorem storeInv_reachable {s : JobStore} (h : Reachable s) : StoreInv s := by
  induction h with
  | init => exact ⟨by simp, List.Pairwise.nil⟩
  | insert id type data now _ hfresh ih => exact storeInv_addJob ih id type data now hfresh
  | claim timeout now _ ih => exact storeInv_claim ih timeout now
  | complete id result now _ ih => exact storeInv_complete ih id result now
  | fail id error now _ ih => exact storeInv_fail ih id error now
  | sweep retention now _ ih => exact storeInv_sweep ih retention now

/-! ## Concrete demonstration states -/

/-- The row produced by inserting job `job-a` at time 0 and claiming it at
time 0: active, first attempt, `retried = 1`. -/
def demoActiveJob : Job :=
  { id := "job-a", type := "work", data := "null", status := .active, result := none,
    error := none, retried := 1, created_at := 0, started_at := some 0,
    completed_at := none }

/-- Insert one job at time 0, claim it at time 0 (timeout 30). -/
def claimedOnceStore : JobStore :=
  (claimNextJob 30 0 (addJob "job-a" "work" Json.null 0 []).2).2

lemma claimedOnceStore_eq : claimedOnceStore = [demoActiveJob] := rfl

lemma reachable_claimedOnce : Reachable claimedOnceStore :=
  Reachable.claim 30 0
    (Reachable.insert "job-a" "work" Json.null 0 Reachable.init (by simp))

/-- What the code actually produces when `claimNextJob` runs at time 31 on
the stale first-attempt job: failed outright. -/
def demoFailedJob : Job :=
  { id := "job-a", type := "work", data := "null", status := .failed, result := none,
    error := some "Timed out after retry", retried := 1, created_at := 0,
    started_at := some 0, completed_at := some 31 }

/-- Completing the claimed job at time 5. -/
def completedStore : JobStore := (completeJob "job-a" Json.null 5 claimedOnceStore).2

/-- The completed row: `started_at` and `retried` keep their values from the
active phase. -/
def demoCompletedJob : Job :=
  { id := "job-a", type := "work", data := "null", status := .completed,
    result := some "null", error := none, retried := 1, created_at := 0,
    started_at := some 0, completed_at := some 5 }

lemma completedStore_eq : completedStore = [demoCompletedJob] := rfl

lemma reachable_completedStore : Reachable completedStore :=
  Reachable.complete "job-a" Json.null 5 reachable_claimedOnce

/-! ## The claims -/

/-- C1: the claim says that a stale `active` job that has been claimed
exactly once (`retried = 1`, `started_at` older than `now - timeout`) is
reverted to `waiting` with `started_at` cleared by the next `claimNext`
call.  The code does the opposite: its recovery UPDATE requires
`retried = 0`, which no active row can satisfy (claiming always sets
`retried ≥ 1`), so the stale first-attempt job instead matches the
`retried = 1` failure UPDATE and is marked `failed` with error
'Timed out after retry' — despite never having been retried.  Concrete run:
insert at t=0, claim at t=0 (active, `retried = 1`, `started_at = 0`), then
`claimNextJob` with timeout 30 at t=31: the job ends `failed`, not
`waiting`, and nothing is returned. -/
theorem c1_stale_first_attempt_failed_not_reverted :
    claimedOnceStore = [demoActiveJob] ∧
    (claimNextJob 30 31 claimedOnceStore).2 = [demoFailedJob] ∧
    (claimNextJob 30 31 claimedOnceStore).1 = none :=
  ⟨rfl, rfl, rfl⟩

/-- C2: the claim says a job claimed and timed out exactly once is
reclaimable by a later `claimNext`.  In the code it is not: the first
timeout already transitions it to `failed` (with `error = 'Timed out after
retry'`), and a later `claimNext` finds nothing to claim and leaves the
failed row untouched.  (The second half of the claim — a twice-timed-out
job goes straight to `failed` — speaks about a state the code can never
reach, since no job is ever reverted to `waiting`.) -/
theorem c2_timed_out_job_not_reclaimable :
    ((claimNextJob 30 31 claimedOnceStore).2.map fun j => (j.status, j.error)) =
      [(Status.failed, some "Timed out after retry")] ∧
    (claimNextJob 30 32 (claimNextJob 30 31 claimedOnceStore).2).1 = none ∧
    (claimNextJob 30 32 (claimNextJob 30 31 claimedOnceStore).2).2 = [demoFailedJob] :=
  ⟨rfl, rfl, rfl⟩

/-- C3, counterexample: the biconditional `status = active ↔ startedAt set ∧
retryCount ≥ 1` fails on reachable states — completing a claimed job leaves
`started_at` and `retried` untouched, so the completed row satisfies the
right-hand side with `status = completed`.  Reached by insert, claimNext,
complete. -/
theorem c3_active_iff_counterexample :
    Reachable completedStore ∧
    ∃ j ∈ completedStore,
      ¬(j.status = .active ↔ (j.started_at ≠ none ∧ 1 ≤ j.retried)) := by
  refine ⟨reachable_completedStore, demoCompletedJob, ?_, ?_⟩
  · rw [completedStore_eq]
    exact List.mem_singleton.mpr rfl
  · decide

/-- C3, amended: restricted to non-terminal jobs the biconditional holds in
every reachable state: a job in status `waiting` or `active` is `active`
if and only if its `started_at` is set and its retry counter is at least 1.
(Terminal jobs keep `started_at` and `retried` from their active phase, so
the unrestricted biconditional fails for them.) -/
theorem c3_active_iff_started_retried_nonterminal {s : JobStore} (h : Reachable s) :
    ∀ j ∈ s, (j.status = .waiting ∨ j.status = .active) →
      (j.status = .active ↔ (j.started_at ≠ none ∧ 1 ≤ j.retried)) := by
  intro j hj hnt
  obtain ⟨hw, ha, _, _⟩ := (storeInv_reachable h).1 j hj
  constructor
  · intro hact
    obtain ⟨h1, h2⟩ := ha hact
    exact ⟨h2, by omega⟩
  · rintro ⟨h1, h2⟩
    rcases hnt with hst | hst
    · obtain ⟨_, hsn⟩ := hw hst
      exact absurd hsn h1
    · exact hst

/-- Witness for the amended C3 at the concrete claimed job. -/
theorem c3_witness :
    demoActiveJob.status = .active ↔
      (demoActiveJob.started_at ≠ none ∧ 1 ≤ demoActiveJob.retried) :=
  c3_active_iff_started_retried_nonterminal reachable_claimedOnce demoActiveJob
    (by rw [claimedOnceStore_eq]; exact List.mem_singleton.mpr rfl)
    (Or.inr rfl)

/-- C4: in every reachable state every job's retry counter is at most 1, so
a job is claimed at most twice across its lifetime (`retried` counts the
claims of a job: it starts at 0 and each promotion of that job increments
it by one; in fact, since the recovery UPDATE never fires, no job is ever
claimed more than once). -/
theorem c4_retried_le_one {s : JobStore} (h : Reachable s) :
    ∀ j ∈ s, j.retried ≤ 1 :=
  fun j hj => ((storeInv_reachable h).1 j hj).2.2.1

/-- Witness for C4 at the concrete claimed job. -/
theorem c4_witness : demoActiveJob.retried ≤ 1 :=
  c4_retried_le_one reachable_claimedOnce demoActiveJob
    (by rw [claimedOnceStore_eq]; exact List.mem_singleton.mpr rfl)

/-- C5: when no row has the given id with status `active`, `completeJob`
and `failJob` both return `false` and leave the table — every field of
every row — unchanged. -/
theorem c5_complete_fail_noop (id : String) (result : Json) (error : String)
    (now : Nat) (s : JobStore)
    (h : ∀ j ∈ s, ¬(j.id = id ∧ j.status = .active)) :
    completeJob id result now s = (false, s) ∧ failJob id error now s = (false, s) := by
  have hcount : (s.countP fun j => decide (j.id = id ∧ j.status = .active)) = 0 := by
    rw [List.countP_eq_zero]
    intro j hj
    simpa using h j hj
  have hmap : ∀ (f : Job → Job),
      (s.map fun j => if j.id = id ∧ j.status = .active then f j else j) = s := by
    intro f
    have hpt : ∀ j ∈ s,
        (fun j => if j.id = id ∧ j.status = .active then f j else j) j =
          (fun j => j) j :=
      fun j hj => if_neg (h j hj)
    calc (s.map fun j => if j.id = id ∧ j.status = .active then f j else j)
        = s.map (fun j => j) := List.map_congr_left hpt
      _ = s := List.map_id' s
  constructor
  · rw [completeJob, hcount, hmap]
    rfl
  · rw [failJob, hcount, hmap]
    rfl

/-- Witness for C5: completing or failing a job that is only `waiting`
returns false and changes nothing. -/
theorem c5_witness :
    completeJob "nope" Json.null 7 claimedOnceStore = (false, claimedOnceStore) ∧
    failJob "nope" "boom" 7 claimedOnceStore = (false, claimedOnceStore) :=
  c5_complete_fail_noop "nope" Json.null "boom" 7 claimedOnceStore
    (by rw [claimedOnceStore_eq]; decide)

/-- C6: whenever a `waiting` job exists after the two timeout UPDATEs have
run, `claimNextJob` selects and returns a waiting job whose `created_at` is
minimal among all waiting jobs at that moment (FIFO by creation time; ties
go to the smaller rowid). -/
theorem c6_claim_returns_oldest_waiting (timeout now : Nat) (s : JobStore)
    (h : ∃ j ∈ afterTimeoutSweeps timeout now s, j.status = .waiting) :
    ∃ job, selectOldestWaiting (afterTimeoutSweeps timeout now s) = some job ∧
      job ∈ afterTimeoutSweeps timeout now s ∧ job.status = .waiting ∧
      (∀ k ∈ afterTimeoutSweeps timeout now s, k.status = .waiting →
        job.created_at ≤ k.created_at) ∧
      (claimNextJob timeout now s).1 = some (job.id, job.type, Json.parse job.data) := by
  cases hsel : selectOldestWaiting (afterTimeoutSweeps timeout now s) with
  | none =>
    obtain ⟨j, hj, hw⟩ := h
    exact absurd hw (sow_none hsel j hj)
  | some job =>
    obtain ⟨hm, hw⟩ := sow_mem hsel
    refine ⟨job, rfl, hm, hw, sow_min hsel, ?_⟩
    simp only [claimNextJob, hsel]

/-- Two waiting jobs, the younger one inserted first. -/
def twoWaitingStore : JobStore :=
  (addJob "job-b" "late" Json.null 3 (addJob "job-a" "early" Json.null 5 []).2).2

/-- Witness for C6: with jobs created at times 5 and 3 (in that insertion
order), the job created at time 3 is selected. -/
theorem c6_witness :
    ∃ job, selectOldestWaiting (afterTimeoutSweeps 10 6 twoWaitingStore) = some job ∧
      job ∈ afterTimeoutSweeps 10 6 twoWaitingStore ∧ job.status = .waiting ∧
      (∀ k ∈ afterTimeoutSweeps 10 6 twoWaitingStore, k.status = .waiting →
        job.created_at ≤ k.created_at) ∧
      (claimNextJob 10 6 twoWaitingStore).1 =
        some (job.id, job.type, Json.parse job.data) :=
  c6_claim_returns_oldest_waiting 10 6 twoWaitingStore (by decide)

lemma sweepable_iff (retention now : Nat) (j : Job) :
    sweepable retention now j = true ↔
      ((j.status = .completed ∨ j.status = .failed) ∧
       ∃ t, j.completed_at = some t ∧ retention < now - t) := by
  unfold sweepable completedBefore
  cases hc : j.completed_at with
  | none => simp
  | some t =>
    simp only [Bool.and_eq_true, decide_eq_true_eq, Option.some.injEq]
    constructor
    · rintro ⟨h1, h2⟩
      exact ⟨h1, t, rfl, by omega⟩
    · rintro ⟨h1, t2, rfl, h2⟩
      exact ⟨h1, by omega⟩

lemma length_filter_partition (p : Job → Bool) (s : JobStore) :
    (s.filter p).length + (s.filter fun j => !p j).length = s.length := by
  induction s with
  | nil => rfl
  | cons a l ih =>
    simp only [List.filter_cons]
    cases hp : p a <;> simp [hp] <;> omega

/-- C7: `cleanupOldJobs` deletes a row if and only if its status is
`completed` or `failed` and `now - completed_at` exceeds the retention;
`waiting`/`active` rows always survive; and the returned count is exactly
the number of rows deleted. -/
theorem c7_cleanup_spec (retention now : Nat) (s : JobStore) :
    (∀ j ∈ s, (j ∈ (cleanupOldJobs retention now s).2 ↔
        ¬((j.status = .completed ∨ j.status = .failed) ∧
          ∃ t, j.completed_at = some t ∧ retention < now - t))) ∧
    (∀ j ∈ s, (j.status = .waiting ∨ j.status = .active) →
      j ∈ (cleanupOldJobs retention now s).2) ∧
    (cleanupOldJobs retention now s).1 + (cleanupOldJobs retention now s).2.length
      = s.length := by
  have hiff : ∀ j ∈ s, (j ∈ (cleanupOldJobs retention now s).2 ↔
      ¬((j.status = .completed ∨ j.status = .failed) ∧
        ∃ t, j.completed_at = some t ∧ retention < now - t)) := by
    intro j hj
    rw [cleanupOldJobs]
    simp only [List.mem_filter, hj, true_and, Bool.not_eq_true']
    rw [← sweepable_iff retention now j]
    cases sweepable retention now j <;> simp
  refine ⟨hiff, ?_, ?_⟩
  · intro j hj hst
    refine (hiff j hj).mpr ?_
    rintro ⟨hterm, -⟩
    rcases hst with h | h <;> rcases hterm with h' | h' <;> rw [h] at h' <;>
      exact Status.noConfusion h'
  · exact length_filter_partition _ s

/-- Witness for C7: an aged completed row is deleted. -/
theorem c7_witness : demoCompletedJob ∉ (cleanupOldJobs 5 100 [demoCompletedJob]).2 := by
  intro hmem
  exact ((c7_cleanup_spec 5 100 [demoCompletedJob]).1 demoCompletedJob
    (List.mem_singleton.mpr rfl)).mp hmem ⟨Or.inl rfl, 5, rfl, by omega⟩

/-- C8: round trip — inserting a job with a fresh id and then claiming with
a `claimNext` call that selects that job returns exactly the inserted
`type` and `data` (the payload survives `JSON.stringify` followed by
`JSON.parse` unchanged). -/
theorem c8_insert_claim_roundtrip (s : JobStore) (id type : String) (d : Json)
    (now₀ timeout now₁ : Nat)
    (hfresh : ∀ j ∈ s, j.id ≠ id)
    (hsel : ∃ jb, selectOldestWaiting
        (afterTimeoutSweeps timeout now₁ (addJob id type d now₀ s).2) = some jb ∧
      jb.id = id) :
    (claimNextJob timeout now₁ (addJob id type d now₀ s).2).1 =
      some (id, type, some d) := by
  obtain ⟨jb, hsel, hid⟩ := hsel
  obtain ⟨j0, hj0, hjb⟩ := mem_afterTimeoutSweeps (sow_mem hsel).1
  have hjbid : jb.id = j0.id := by
    rw [hjb, failStep_id, recoverStep_id]
  simp only [addJob, List.mem_append, List.mem_singleton] at hj0
  rcases hj0 with hj0s | rfl
  · exact absurd (hjbid ▸ hid) (hfresh j0 hj0s)
  · have hjbrow : jb =
        { id := id, type := type, data := Json.stringify d, status := .waiting,
          result := none, error := none, retried := 0, created_at := now₀,
          started_at := none, completed_at := none } := by
      rw [hjb]
      simp [recoverStep, failStep]
    simp only [claimNextJob, hsel, hjbrow]
    simp [parse_stringify_roundtrip]

/-- Witness for C8 with a structured payload on the empty store. -/
theorem c8_witness :
    (claimNextJob 30 1 (addJob "job-z" "encode"
        (Json.obj (.cons "k" (.arr (.cons (.num 42) (.cons (.str "x\"y\\z") .nil)))
          (.cons "n" (.num (-7)) .nil))) 0 []).2).1 =
      some ("job-z", "encode",
        some (Json.obj (.cons "k" (.arr (.cons (.num 42) (.cons (.str "x\"y\\z") .nil)))
          (.cons "n" (.num (-7)) .nil)))) :=
  c8_insert_claim_roundtrip [] "job-z" "encode" _ 0 30 1 (by simp)
    ⟨_, rfl, rfl⟩

/-- C9: a request body whose `type` field is the empty string, absent, or
any non-string value is rejected by `validateJobInput` (`ok = false`), and
the POST handler then creates no job row. -/
theorem c9_validate_rejects_bad_type (maxBytes : Nat) (fields : JsonObj)
    (h : lookupField fields "type" = none ∨
         lookupField fields "type" = some (Json.str "") ∨
         (∃ v, lookupField fields "type" = some v ∧ ∀ t, v ≠ Json.str t)) :
    (validateJobInput maxBytes (Json.obj fields)).isOk = false ∧
    ∀ id now s, (postQueue maxBytes (Json.obj fields) id now s).2 = s := by
  have hko : (validateJobInput maxBytes (Json.obj fields)).isOk = false := by
    rcases h with h | h | ⟨v, hv, hns⟩
    · simp [validateJobInput, truthy, isObjectType, getField, h, ValidationResult.isOk]
    · simp [validateJobInput, truthy, isObjectType, getField, h, ValidationResult.isOk]
    · cases v with
      | str t => exact absurd rfl (hns t)
      | null =>
        simp [validateJobInput, truthy, isObjectType, getField, hv, ValidationResult.isOk]
      | bool b =>
        cases b <;>
          simp [validateJobInput, truthy, isObjectType, getField, hv, ValidationResult.isOk]
      | num n =>
        by_cases hn : n = 0
        · subst hn
          simp [validateJobInput, truthy, isObjectType, getField, hv, ValidationResult.isOk]
        · simp [validateJobInput, truthy, isObjectType, getField, hv, hn,
            ValidationResult.isOk]
      | arr a =>
        simp [validateJobInput, truthy, isObjectType, getField, hv, ValidationResult.isOk]
      | obj o =>
        simp [validateJobInput, truthy, isObjectType, getField, hv, ValidationResult.isOk]
  refine ⟨hko, ?_⟩
  intro id now s
  rw [postQueue]
  cases hval : validateJobInput maxBytes (Json.obj fields) with
  | ok ty dd =>
    rw [hval] at hko
    exact absurd hko (by simp [ValidationResult.isOk])
  | error msg => simp only [hval]

/-- Witness for C9 with a numeric `type` field. -/
theorem c9_witness :
    (validateJobInput 100
      (Json.obj (.cons "type" (Json.num 5) (.cons "data" Json.null .nil)))).isOk = false ∧
    (postQueue 100 (Json.obj (.cons "type" (Json.num 5) (.cons "data" Json.null .nil)))
      "id1" 0 []).2 = ([] : JobStore) := by
  have h := c9_validate_rejects_bad_type 100
    (.cons "type" (Json.num 5) (.cons "data" Json.null .nil))
    (Or.inr (Or.inr ⟨Json.num 5, rfl, fun t ht => Json.noConfusion ht⟩))
  exact ⟨h.1, h.2 "id1" 0 []⟩

lemma getJobCounts_fold (s : JobStore) (c : JobCounts) :
    s.foldl
      (fun c j =>
        match j.status with
        | .waiting => { c with waiting := c.waiting + 1 }
        | .active => { c with active := c.active + 1 }
        | .completed => { c with completed := c.completed + 1 }
        | .failed => { c with failed := c.failed + 1 }) c =
    ⟨c.waiting + (s.filter fun j => decide (j.status = .waiting)).length,
     c.active + (s.filter fun j => decide (j.status = .active)).length,
     c.completed + (s.filter fun j => decide (j.status = .completed)).length,
     c.failed + (s.filter fun j => decide (j.status = .failed)).length⟩ := by
  induction s generalizing c with
  | nil => simp
  | cons a l ih =>
    rw [List.foldl_cons, ih]
    cases ha : a.status <;>
      simp [List.filter_cons, ha, JobCounts.mk.injEq] <;> omega

/-- C10: `getJobCounts` always returns a record with all four status keys,
each equal to the number of jobs in that status (0 when there are none,
including on the empty store), and leaves the store unchanged. -/
theorem c10_counts_spec (s : JobStore) :
    getJobCounts s =
      (⟨(s.filter fun j => decide (j.status = .waiting)).length,
        (s.filter fun j => decide (j.status = .active)).length,
        (s.filter fun j => decide (j.status = .completed)).length,
        (s.filter fun j => decide (j.status = .failed)).length⟩, s) := by
  rw [getJobCounts, getJobCounts_fold]
  simp

end TestQueue
